import Mathlib

/-!
Verification of the reactive value-resolution core of the `dime` dependency
injection library (files under `src/`), against its natural-language
specification.

The development shallowly embeds:

* the per-dependency `Inner` lifecycle (`src/src/injector/state.rs`),
* the `tokio::sync::watch` channel as used by `RawState`/`RawWatch`
  (version counter, closed flag, `send_replace`, `send_if_modified`,
  `changed`, `wait_for`),
* the `StateMap` double-checked slot lookup (`src/src/injector/state_map.rs`),
* the `try_join_ty` fail-fast join and the `changed()` race over tuples of
  watches (`src/dime_core/src/injector.rs` and `src/src/injector/watch.rs`),
* the unit watch `impl Watch for ()`.

Erased values are modelled as naturals; asynchronous suspension is modelled
by traces (a list of channel snapshots observed at successive wake-ups) for
`wait_for`-based operations, and by explicit poll-state machines with fuel
for the tuple combinators.
-/

namespace Dime

/-- Type-erased values (`Erased` in `src/src/erased.rs`) are opaque to the
injector core; we model them by natural-number codes. -/
abbrev Erased := Nat

/-- The payload of `ResolutionError::Other(Arc<dyn Error + Send + Sync>)`.
`recvError` stands for `tokio::sync::watch::error::RecvError`, the error the
library wraps when the channel sender (the store) is gone; its Rust
constructor is private, so user-supplied error values (`user code`) can never
be `recvError`. -/
inductive OtherSource where
  | recvError
  | user (code : Nat)
deriving DecidableEq, Repr

/-- `ResolutionError` from `src/src/result.rs`: `NotDefined(TypeId, &str)` or
`Other(Arc<dyn Error>)`. Type ids and type names are modelled by naturals. -/
inductive ResolutionError where
  | notDefined (typeId : Nat) (typeName : Nat)
  | other (source : OtherSource)
deriving DecidableEq, Repr

/-- `ResolutionError::other`: the public constructor wrapping a
producer-supplied error value. -/
def ResolutionError.mkOther (code : Nat) : ResolutionError :=
  .other (.user code)

/-- `ResolutionError::is_not_defined`. -/
def ResolutionError.isNotDefined : ResolutionError → Bool
  | .notDefined _ _ => true
  | .other _ => false

/-- `Result<Erased>` stored in a ready slot. -/
abbrev Outcome := Except ResolutionError Erased

instance : DecidableEq Outcome := fun a b =>
  match a, b with
  | .ok x, .ok y =>
    if h : x = y then .isTrue (by rw [h])
    else .isFalse (by simp [h])
  | .error x, .error y =>
    if h : x = y then .isTrue (by rw [h])
    else .isFalse (by simp [h])
  | .ok _, .error _ => .isFalse (by simp)
  | .error _, .ok _ => .isFalse (by simp)

/-- The `Inner` lifecycle enum of `src/src/injector/state.rs`. -/
inductive Inner where
  | undefined
  | pending
  | ready (outcome : Outcome)
deriving DecidableEq, Repr

/-- `Inner::is_defined`. -/
def Inner.isDefined : Inner → Bool
  | .undefined => false
  | _ => true

/-- `Inner::is_available`. -/
def Inner.isAvailable : Inner → Bool
  | .ready _ => true
  | _ => false

/-- `Inner::is_pending` is not in the source as a method; this is the
predicate `!matches!(state, Inner::Pending)`, negated, used by
`RawWatch::available`. -/
def Inner.isPending : Inner → Bool
  | .pending => true
  | _ => false

/-- `Inner::define(&mut self) -> bool`: `Undefined` becomes `Pending` and the
call reports a modification; any other state is left unchanged. The returned
boolean is the `send_if_modified` modification flag. -/
def Inner.defineStep : Inner → Bool × Inner
  | .undefined => (true, .pending)
  | s => (false, s)

/-- A `tokio::sync::watch` channel cell: the current value, the version
counter bumped on every notification, and whether the sender has been
dropped. -/
structure Chan where
  value : Inner
  version : Nat
  closed : Bool
deriving DecidableEq, Repr

/-- `watch::channel(inner)`: fresh channel at version zero, sender alive. -/
def Chan.new (v : Inner) : Chan :=
  ⟨v, 0, false⟩

/-- `Sender::send_if_modified(f)`: applies `f` to the value in place and bumps
the version (notifying subscribers) only when `f` reports a modification. -/
def Chan.sendIfModified (c : Chan) (f : Inner → Bool × Inner) : Chan :=
  let r := f c.value
  if r.1 then ⟨r.2, c.version + 1, c.closed⟩ else ⟨r.2, c.version, c.closed⟩

/-- `Sender::send_replace(v)`: unconditionally stores `v` and bumps the
version, notifying subscribers. -/
def Chan.sendReplace (c : Chan) (v : Inner) : Chan :=
  ⟨v, c.version + 1, c.closed⟩

/-- Dropping the sender side (the store and its slot going away). -/
def Chan.dropSender (c : Chan) : Chan :=
  { c with closed := true }

/-- `RawState` of `src/src/injector/state.rs`: the sender side of the watch
channel plus the identity of the dependency key. -/
structure RawState where
  chan : Chan
  typeId : Nat
  typeName : Nat
deriving DecidableEq, Repr

/-- `RawState::new(type_id, type_name)`: a fresh, undefined state. -/
def RawState.new (typeId typeName : Nat) : RawState :=
  ⟨Chan.new .undefined, typeId, typeName⟩

/-- `RawState::define`: `self.inner.send_if_modified(Inner::define)`. -/
def RawState.define (s : RawState) : RawState :=
  { s with chan := s.chan.sendIfModified Inner.defineStep }

/-- `RawState::inject(value)`: `self.inner.send_replace(Inner::Ready(value))`. -/
def RawState.inject (s : RawState) (value : Outcome) : RawState :=
  { s with chan := s.chan.sendReplace (.ready value) }

/-- `RawWatch` of `src/src/injector/state.rs`: the receiver side, holding the
last version this handle has observed, plus the key identity used for
`NotDefined` errors. -/
structure RawWatch where
  seen : Nat
  typeId : Nat
  typeName : Nat
deriving DecidableEq, Repr

/-- `RawState::watch`: `self.inner.subscribe()`. A freshly subscribed
receiver marks the channel's current version as already seen. -/
def RawState.watch (s : RawState) : RawWatch :=
  ⟨s.chan.version, s.typeId, s.typeName⟩

/-- One poll of `Receiver::changed()` against the channel snapshot `c`:
`some (ok w)` when an unseen version exists (the cursor advances),
`some (error ...)` when the sender is gone and nothing is unseen (the
`RecvError` is wrapped by `map_err(ResolutionError::other)` as in
`RawWatch::changed`), `none` when the call stays suspended. -/
def RawWatch.changedPoll (w : RawWatch) (c : Chan) :
    Option (Except ResolutionError RawWatch) :=
  if c.version ≠ w.seen then some (.ok { w with seen := c.version })
  else if c.closed then some (.error (.other .recvError))
  else none

/-- `Receiver::has_changed()` through `RawWatch::has_changed`: errors when
the sender is gone, otherwise reports whether an unseen version exists. -/
def RawWatch.hasChanged (w : RawWatch) (c : Chan) :
    Except ResolutionError Bool :=
  if c.closed then .error (.other .recvError)
  else .ok (c.version ≠ w.seen)

/-- `Receiver::wait_for(pred)` run against the succession of channel
snapshots a suspended receiver observes (`trace.head` is the state at call
time): resolves with the first value satisfying `pred`, errors (wrapped as
`ResolutionError::other`) at the first snapshot where the sender is gone and
`pred` does not hold, and is still suspended (`none`) if the trace runs out. -/
def waitFor (pred : Inner → Bool) : List Chan → Option (Except ResolutionError Inner)
  | [] => none
  | c :: rest =>
    if pred c.value then some (.ok c.value)
    else if c.closed then some (.error (.other .recvError))
    else waitFor pred rest

/-- `RawWatch::available`: `wait_for(|state| !matches!(state, Inner::Pending))`
then map `Undefined` to `NotDefined(type_id, type_name)` and `Ready(result)`
to the stored result. The `Inner::Pending` arm is `unreachable!()` in the
source; it is given an arbitrary error here and proved unreachable in
`waitFor_sound`. -/
def availableResult (typeId typeName : Nat) (trace : List Chan) :
    Option (Except ResolutionError Erased) :=
  (waitFor (fun s => !s.isPending) trace).map fun r =>
    r.bind fun s =>
      match s with
      | .undefined => .error (.notDefined typeId typeName)
      | .pending => .error (.other .recvError)
      | .ready result => result

/-- `RawWatch::defined_and_available`:
`wait_for(|state| matches!(state, Inner::Ready(_)))` then return the stored
result. The non-`Ready` arm is `unreachable!()` in the source. -/
def definedAndAvailableResult (trace : List Chan) :
    Option (Except ResolutionError Erased) :=
  (waitFor Inner.isAvailable trace).map fun r =>
    r.bind fun s =>
      match s with
      | .ready result => result
      | _ => .error (.other .recvError)

/-- A conclusive snapshot: the slot is `Ready` and the stored outcome is not
itself a `NotDefined` failure. -/
def Inner.isConclusive : Inner → Bool
  | .ready (.error (.notDefined _ _)) => false
  | .ready _ => true
  | _ => false

/-- Modelled from the spec: the slot-backed implementation of the `Watch`
trait's `wait_always` is in the `dime` crate's injector state module
(declared as `pub mod state` in `src/dime/src/injector/mod.rs`), which is not
among the sources here; only the trait declaration, wrappers and callers are.
Per the spec, `wait_always` "suspends until the Slot is `Ready` and the
Outcome is not itself a `NotDefined` failure; loops past `NotDefined`
Ready-outcomes". -/
def waitAlwaysResult (trace : List Chan) :
    Option (Except ResolutionError Erased) :=
  (waitFor Inner.isConclusive trace).map fun r =>
    r.bind fun s =>
      match s with
      | .ready result => result
      | _ => .error (.other .recvError)

/-- A producer-side operation on one slot: `RawState::define` or
`RawState::inject`. -/
inductive Op where
  | define
  | inject (value : Outcome)
deriving DecidableEq, Repr

/-- Applies one operation to a slot. -/
def RawState.applyOp (s : RawState) : Op → RawState
  | .define => s.define
  | .inject v => s.inject v

/-- Applies a sequence of operations to a slot, oldest first. -/
def RawState.runOps (s : RawState) (ops : List Op) : RawState :=
  ops.foldl RawState.applyOp s

/-- Lifecycle progress measure: `Undefined < Pending < Ready`. -/
def Inner.rank : Inner → Nat
  | .undefined => 0
  | .pending => 1
  | .ready _ => 2

/-- The `StateMap` registry (`src/src/injector/state_map.rs`), reduced to
slot identities: an association list from type id to the identity of the
slot allocated for it, plus the next fresh identity. `BTreeMap::insert` is
only ever reached on keys proved absent, so an insert-at-front association
list is a faithful model. -/
abbrev KMap := List (Nat × Nat)

/-- `BTreeMap::get(&type_id)` on the identity map. -/
def lookupSlot (m : KMap) (k : Nat) : Option Nat :=
  match m with
  | [] => none
  | (k₀, sid) :: rest => if k₀ = k then some sid else lookupSlot rest k

/-- `StateMap::with_state_by_type_id`, with the registry contents observed
under the shared (read) lock passed as `m1` and the contents observed after
acquiring the exclusive (write) lock passed as `m2`, so that a concurrent
insertion in the race window between the two locks is expressible
(`m2 = m1` in the unraced sequential case). Returns the registry left behind,
the next fresh identity, and the identity of the slot the closure `f` was
invoked on. -/
def withStateByTypeId (m1 m2 : KMap) (next k : Nat) : KMap × Nat × Nat :=
  match lookupSlot m1 k with
  | some sid => (m2, next, sid)
  | none =>
    match lookupSlot m2 k with
    | some sid => (m2, next, sid)
    | none => ((k, next) :: m2, next + 1, next)

/-- `StateMap::with_state_and_watch_by_type_id`: identical double-checked
lookup; additionally returns the identity of the slot whose `watch()` is
subscribed and handed back, which is always the slot `f` ran on. -/
def withStateAndWatchByTypeId (m1 m2 : KMap) (next k : Nat) :
    KMap × Nat × Nat × Nat :=
  match lookupSlot m1 k with
  | some sid => (m2, next, sid, sid)
  | none =>
    match lookupSlot m2 k with
    | some sid => (m2, next, sid, sid)
    | none => ((k, next) :: m2, next + 1, next, next)

/-!
## The tuple combinator

`try_join_ty` (generated by `def_try_join_ty_fn!` in
`src/dime_core/src/injector.rs` and `src/src/injector/watch.rs`) wraps each
member future in `TryMaybeDone` (`src/dime_core/src/macros.rs`) and, on every
wake-up, polls the members in positional order inside one `poll_fn` closure:
the first `Ready(Err)` is returned at once (members after it are not polled
in that pass), otherwise the pass records whether all members are done and,
once they are, takes all the outputs in positional order.

A member future is modelled as a function from its own poll count to
`Option (Except ε α)`: `none` is `Poll::Pending` at that poll,
`some r` is `Poll::Ready(r)`.
-/

/-- `TryMaybeDone<F>` from `src/dime_core/src/macros.rs`, with the wrapped
future represented by its poll function and the number of polls it has
received so far. -/
inductive TryMaybeDone (ε α : Type) where
  | future (f : Nat → Option (Except ε α)) (polls : Nat)
  | done (output : α)
  | gone

/-- `<TryMaybeDone as Future>::poll`: polls the wrapped future if still
present, memoizing an `Ok` output as `done`; a `done` member reports ready
without polling anything. The `Gone` arm is `unreachable!()` in the source
(never polled again after `take_output`); it is modelled as pending. -/
def TryMaybeDone.poll : TryMaybeDone ε α → Option (Except ε Unit) × TryMaybeDone ε α
  | .future f n =>
    match f n with
    | none => (none, .future f (n + 1))
    | some (.error e) => (some (.error e), .future f (n + 1))
    | some (.ok a) => (some (.ok ()), .done a)
  | .done a => (some (.ok ()), .done a)
  | .gone => (none, .gone)

/-- `TryMaybeDone::take_output`: yields the memoized output, leaving `Gone`. -/
def TryMaybeDone.takeOutput : TryMaybeDone ε α → Option α
  | .done a => some a
  | _ => none

/-- One execution of the closure passed to `poll_fn` in `try_join_ty`:
polls the members in positional order; the first `Ready(Err)` short-circuits
the pass (later members are left unpolled); otherwise returns whether every
member reported ready together with the advanced member states. -/
def tryJoinPass : List (TryMaybeDone ε α) → Except ε (Bool × List (TryMaybeDone ε α))
  | [] => .ok (true, [])
  | m :: ms =>
    match m.poll with
    | (some (.error e), _) => .error e
    | (some (.ok ()), m₁) =>
      (tryJoinPass ms).map fun r => (r.1, m₁ :: r.2)
    | (none, m₁) =>
      (tryJoinPass ms).map fun r => (false, m₁ :: r.2)

/-- Collects the outputs of completed members in positional order; `none`
models the `expect("expected completed future")` panic, proved unreachable
when the pass reported all members done. -/
def takeOutputs : List (TryMaybeDone ε α) → Option (List α)
  | [] => some []
  | m :: ms =>
    match m.takeOutput with
    | some a => (takeOutputs ms).map (a :: ·)
    | none => none

/-- Drives `try_join_ty` for at most `fuel` wake-ups: `some r` when the
join resolves with `r` within that many passes, `none` when it is still
suspended after them. -/
def tryJoinRun (fuel : Nat) (ms : List (TryMaybeDone ε α)) :
    Option (Except ε (List α)) :=
  match fuel with
  | 0 => none
  | fuel + 1 =>
    match tryJoinPass ms with
    | .error e => some (.error e)
    | .ok (true, ms₁) => (takeOutputs ms₁).map .ok
    | .ok (false, ms₁) => tryJoinRun fuel ms₁

/-- The composite `wait`-family future over member futures `fs` (each member
already instantiated as `wait()`, `wait_optional()`, `wait_always()` or
`wait_ok()` on that member): `try_join_ty` starting from unpolled members. -/
def tupleWait (fuel : Nat) (fs : List (Nat → Option (Except ε α))) :
    Option (Except ε (List α)) :=
  tryJoinRun fuel (fs.map fun f => .future f 0)

/-!
## The `changed()` race

The tuple's `changed()` pins the members' `changed()` futures and, in one
`poll_fn` closure, polls them in positional order, returning the first
`Ready` result (success or error); if none is ready the pass is pending.
-/

/-- One member of the race: its `changed()` future's poll function and the
number of polls it has received. -/
structure RaceFut (ε : Type) where
  f : Nat → Option (Except ε Unit)
  polls : Nat

/-- One execution of the `poll_fn` closure in the tuple's `changed()`:
members are polled in positional order until the first one reports ready;
its result is returned and the members after it are left unpolled. -/
def racePass : List (RaceFut ε) → Option (Except ε Unit) × List (RaceFut ε)
  | [] => (none, [])
  | m :: ms =>
    match m.f m.polls with
    | some res => (some res, { m with polls := m.polls + 1 } :: ms)
    | none =>
      let r := racePass ms
      (r.1, { m with polls := m.polls + 1 } :: r.2)

/-- Drives the tuple's `changed()` for at most `fuel` wake-ups. -/
def raceRun (fuel : Nat) (ms : List (RaceFut ε)) : Option (Except ε Unit) :=
  match fuel with
  | 0 => none
  | fuel + 1 =>
    match racePass ms with
    | (some res, _) => some res
    | (none, ms₁) => raceRun fuel ms₁

/-- The composite `changed()` over member `changed()` futures `fs`. -/
def tupleChanged (fuel : Nat) (fs : List (Nat → Option (Except ε Unit))) :
    Option (Except ε Unit) :=
  raceRun fuel (fs.map fun f => ⟨f, 0⟩)

/-!
## The unit watch

`impl Watch for ()` in `src/dime_core/src/injector.rs` (and identically in
`src/src/injector/watch.rs`): every snapshot and wait operation succeeds
immediately with the unit value, and `changed()` is `std::future::pending()`.
-/

/-- `<() as Watch>::current`. -/
def unitCurrent : Except ResolutionError Unit := .ok ()

/-- `<() as Watch>::current_optional`. -/
def unitCurrentOptional : Except ResolutionError (Option Unit) := .ok (some ())

/-- `<() as Watch>::wait` — an `async` block returning `Ok(())`, i.e. a
future that is ready with `Ok(())` at its very first poll. -/
def unitWait : Nat → Option (Except ResolutionError Unit) :=
  fun _ => some (.ok ())

/-- `<() as Watch>::wait_optional`. -/
def unitWaitOptional : Nat → Option (Except ResolutionError (Option Unit)) :=
  fun _ => some (.ok (some ()))

/-- `<() as Watch>::wait_always`. -/
def unitWaitAlways : Nat → Option (Except ResolutionError Unit) :=
  fun _ => some (.ok ())

/-- `<() as Watch>::wait_ok`. -/
def unitWaitOk : Nat → Option (Except ResolutionError Unit) :=
  fun _ => some (.ok ())

/-- `<() as Watch>::changed` — `std::future::pending()`: never ready. -/
def unitChanged : Nat → Option (Except ResolutionError Unit) :=
  fun _ => none

/-- The state of one completing member of the join after `k` passes:
memoized once its ready time `t.2.1` has passed, otherwise still a wrapped
future that has been polled `k` times. -/
def stateAfter (t : (Nat → Option (Except ε α)) × Nat × α) (k : Nat) :
    TryMaybeDone ε α :=
  if t.2.1 < k then .done t.2.2 else .future t.1 k

/-! ## Helper lemmas -/

theorem waitFor_shape (pred : Inner → Bool) (trace : List Chan)
    (r : Except ResolutionError Inner) (h : waitFor pred trace = some r) :
    (∃ s, r = .ok s ∧ pred s = true) ∨ r = .error (.other .recvError) := by
  induction trace with
  | nil => simp [waitFor] at h
  | cons c rest ih =>
    rw [waitFor] at h
    by_cases hp : pred c.value = true
    · simp only [hp, if_true, Option.some.injEq] at h
      exact Or.inl ⟨c.value, h.symm, hp⟩
    · simp only [hp, if_false, Bool.false_eq_true] at h
      by_cases hc : c.closed = true
      · simp only [hc, if_true, Option.some.injEq] at h
        exact Or.inr h.symm
      · simp only [hc, if_false, Bool.false_eq_true] at h
        exact ih h

theorem lookupSlot_cons (k₀ sid k : Nat) (m : KMap) :
    lookupSlot ((k₀, sid) :: m) k = if k₀ = k then some sid else lookupSlot m k :=
  rfl

theorem lookupSlot_none_not_mem (m : KMap) (k : Nat)
    (h : lookupSlot m k = none) : k ∉ m.map Prod.fst := by
  induction m with
  | nil => simp
  | cons p rest ih =>
    obtain ⟨k₀, sid⟩ := p
    rw [lookupSlot] at h
    by_cases hk : k₀ = k
    · simp [hk] at h
    · simp only [hk, if_false] at h
      simp only [List.map_cons, List.mem_cons]
      rintro (h₁ | h₂)
      · exact hk h₁.symm
      · exact ih h h₂

theorem rank_applyOp (s : RawState) (op : Op) :
    Inner.rank s.chan.value ≤ Inner.rank (s.applyOp op).chan.value := by
  cases op with
  | define =>
    cases hv : s.chan.value with
    | undefined =>
      simp [RawState.applyOp, RawState.define, Chan.sendIfModified,
        Inner.defineStep, hv, Inner.rank]
    | pending =>
      simp [RawState.applyOp, RawState.define, Chan.sendIfModified,
        Inner.defineStep, hv]
    | ready o =>
      simp [RawState.applyOp, RawState.define, Chan.sendIfModified,
        Inner.defineStep, hv]
  | inject v =>
    have h2 : Inner.rank s.chan.value ≤ 2 := by
      cases s.chan.value <;> simp [Inner.rank]
    simpa [RawState.applyOp, RawState.inject, Chan.sendReplace, Inner.rank]
      using h2

theorem rank_runOps (s : RawState) (ops : List Op) :
    Inner.rank s.chan.value ≤ Inner.rank (s.runOps ops).chan.value := by
  induction ops generalizing s with
  | nil => exact le_rfl
  | cons op rest ih =>
    calc Inner.rank s.chan.value
        ≤ Inner.rank (s.applyOp op).chan.value := rank_applyOp s op
      _ ≤ Inner.rank ((s.applyOp op).runOps rest).chan.value := ih (s.applyOp op)

/-! ## Claims -/

/-- C4: `define(key)` is idempotent: the first call on an `Undefined` slot
moves it to `Pending` with exactly one version increment (one subscriber
notification); a second call changes nothing; and any call on a slot already
past `Undefined` is a no-op that notifies nobody. -/
theorem define_idempotent (s t : RawState)
    (hs : s.chan.value = Inner.undefined)
    (ht : t.chan.value ≠ Inner.undefined) :
    s.define.chan.value = Inner.pending ∧
    s.define.chan.version = s.chan.version + 1 ∧
    s.define.define = s.define ∧
    t.define = t := by
  obtain ⟨⟨v, ver, cl⟩, tid, tn⟩ := s
  simp only at hs
  subst hs
  obtain ⟨⟨tv, tver, tcl⟩, ttid, ttn⟩ := t
  refine ⟨rfl, rfl, rfl, ?_⟩
  cases tv with
  | undefined => exact absurd rfl ht
  | pending => rfl
  | ready o => rfl

theorem define_idempotent_witness :
    (RawState.new 7 3).chan.value = Inner.undefined ∧
    ((RawState.new 7 3).define).chan.value ≠ Inner.undefined ∧
    ((RawState.new 7 3).define.chan.value = Inner.pending ∧
      (RawState.new 7 3).define.chan.version = (RawState.new 7 3).chan.version + 1 ∧
      (RawState.new 7 3).define.define = (RawState.new 7 3).define ∧
      ((RawState.new 7 3).define).define = (RawState.new 7 3).define) :=
  ⟨rfl, by decide,
    define_idempotent (RawState.new 7 3) ((RawState.new 7 3).define) rfl (by decide)⟩

/-- C5: `inject(key, outcome)` unconditionally sets the slot to
`Ready(outcome)` and increments the version (notifying subscribers), for
every prior state and even when the new outcome equals the stored one: no
deduplication ever suppresses the transition or the notification. -/
theorem inject_unconditional (s : RawState) (v : Outcome) :
    (s.inject v).chan.value = Inner.ready v ∧
    (s.inject v).chan.version = s.chan.version + 1 :=
  ⟨rfl, rfl⟩

/-- C6: for a key on which neither `define` nor `inject` was ever called,
the slot is the freshly created `Undefined` one and `wait()`
(`RawWatch::available`) resolves at the very first snapshot — whatever
happens later in the trace — with `NotDefined` carrying that key's
identity. -/
theorem fresh_key_wait_not_defined (tid tn : Nat) (rest : List Chan) :
    availableResult tid tn ((RawState.new tid tn).chan :: rest) =
      some (.error (.notDefined tid tn)) :=
  rfl

/-- C8: the slot lifecycle is monotonic under every sequence of `define` and
`inject` operations: `define` only moves `Undefined` to `Pending` (and
touches nothing else), `inject` always moves to `Ready`, and the lifecycle
rank (`Undefined < Pending < Ready`) never decreases along any reachable
operation sequence. -/
theorem lifecycle_monotonic (s : RawState) (v : Outcome) (ops : List Op) :
    (s.applyOp .define).chan.value =
      (if s.chan.value = Inner.undefined then Inner.pending else s.chan.value) ∧
    (s.applyOp (.inject v)).chan.value = Inner.ready v ∧
    Inner.rank s.chan.value ≤ Inner.rank ((s.runOps ops)).chan.value := by
  refine ⟨?_, rfl, rank_runOps s ops⟩
  cases hv : s.chan.value with
  | undefined =>
    simp [RawState.applyOp, RawState.define, Chan.sendIfModified,
      Inner.defineStep, hv]
  | pending =>
    simp [RawState.applyOp, RawState.define, Chan.sendIfModified,
      Inner.defineStep, hv]
  | ready o =>
    simp [RawState.applyOp, RawState.define, Chan.sendIfModified,
      Inner.defineStep, hv]

/-- C9: when the store and its slot become unreachable (sender dropped)
while a handle is suspended, `changed()` resolves with the wrapped
`RecvError` rather than hanging, and a `wait()` suspended at a `Pending`
snapshot resolves with the same failure once a closed snapshot is observed;
that failure is distinguishable from `NotDefined` and from every
producer-built error (`ResolutionError::other` applied to a user error). -/
theorem store_gone_resolves (w : RawWatch) (c c₁ c₂ : Chan) (code k n : Nat)
    (hseen : c.version = w.seen) (hclosed : c.closed = true)
    (hpend₁ : c₁.value = Inner.pending) (hopen₁ : c₁.closed = false)
    (hpend₂ : c₂.value = Inner.pending) (hclosed₂ : c₂.closed = true) :
    w.changedPoll c = some (.error (.other .recvError)) ∧
    availableResult w.typeId w.typeName [c₁, c₂] =
      some (.error (.other .recvError)) ∧
    ResolutionError.other .recvError ≠ ResolutionError.notDefined k n ∧
    ResolutionError.other .recvError ≠ ResolutionError.mkOther code := by
  refine ⟨?_, ?_, by simp, by simp [ResolutionError.mkOther]⟩
  · simp [RawWatch.changedPoll, hseen, hclosed]
  · simp [availableResult, waitFor, hpend₁, hopen₁, hpend₂, hclosed₂,
      Inner.isPending, Except.bind]

theorem store_gone_resolves_witness :
    ((⟨0, 0, 0⟩ : RawWatch).changedPoll ⟨Inner.pending, 0, true⟩ =
        some (.error (.other .recvError)) ∧
      availableResult 0 0 [⟨Inner.pending, 0, false⟩, ⟨Inner.pending, 0, true⟩] =
        some (.error (.other .recvError)) ∧
      ResolutionError.other .recvError ≠ ResolutionError.notDefined 4 2 ∧
      ResolutionError.other .recvError ≠ ResolutionError.mkOther 9) :=
  store_gone_resolves ⟨0, 0, 0⟩ ⟨Inner.pending, 0, true⟩ ⟨Inner.pending, 0, false⟩
    ⟨Inner.pending, 0, true⟩ 9 4 2 rfl rfl rfl rfl rfl rfl

/-- C2: `wait_always()` (spec-modelled, see `waitAlwaysResult`) suspends
until the slot is `Ready` with an outcome that is not itself a `NotDefined`
failure: a `Ready` snapshot whose stored value is a `NotDefined` error is
looped past, a slot that forever holds such a snapshot never resolves the
call, and a resolved call never yields a `NotDefined`-shaped result. -/
theorem wait_always_skips_not_defined (c : Chan) (trace trace₂ : List Chan)
    (r : Except ResolutionError Erased) (q k₀ n₀ k n : Nat)
    (hc : c.value = Inner.ready (Except.error (ResolutionError.notDefined k₀ n₀)))
    (hopen : c.closed = false)
    (hr : waitAlwaysResult trace₂ = some r) :
    waitAlwaysResult (c :: trace) = waitAlwaysResult trace ∧
    waitAlwaysResult (List.replicate q c) = none ∧
    r ≠ Except.error (ResolutionError.notDefined k n) := by
  have hskip : ∀ tr : List Chan,
      waitAlwaysResult (c :: tr) = waitAlwaysResult tr := by
    intro tr
    simp [waitAlwaysResult, waitFor, hc, hopen, Inner.isConclusive]
  refine ⟨hskip trace, ?_, ?_⟩
  · induction q with
    | zero => rfl
    | succ p ih => rw [List.replicate_succ, hskip, ih]
  · rw [waitAlwaysResult] at hr
    obtain ⟨r₀, hr₀, hbind⟩ := Option.map_eq_some'.mp hr
    rcases waitFor_shape _ _ _ hr₀ with ⟨s, hs, hcon⟩ | herr
    · subst hs
      cases s with
      | undefined => simp [Inner.isConclusive] at hcon
      | pending => simp [Inner.isConclusive] at hcon
      | ready res =>
        cases res with
        | ok a =>
          simp [Except.bind] at hbind
          subst hbind
          simp
        | error err =>
          cases err with
          | notDefined a b => simp [Inner.isConclusive] at hcon
          | other src =>
            simp [Except.bind] at hbind
            subst hbind
            simp
    · subst herr
      simp [Except.bind] at hbind
      subst hbind
      simp

theorem wait_always_skips_not_defined_witness :
    ((⟨Inner.ready (Except.error (ResolutionError.notDefined 1 1)), 0, false⟩ : Chan).value =
        Inner.ready (Except.error (ResolutionError.notDefined 1 1)) ∧
      (⟨Inner.ready (Except.error (ResolutionError.notDefined 1 1)), 0, false⟩ : Chan).closed
        = false ∧
      waitAlwaysResult [⟨Inner.ready (Except.ok 5), 1, false⟩] = some (Except.ok 5) ∧
      (waitAlwaysResult
          ((⟨Inner.ready (Except.error (ResolutionError.notDefined 1 1)), 0, false⟩ : Chan) ::
            [⟨Inner.ready (Except.ok 5), 1, false⟩]) =
          waitAlwaysResult [⟨Inner.ready (Except.ok 5), 1, false⟩] ∧
        waitAlwaysResult
          (List.replicate 4
            (⟨Inner.ready (Except.error (ResolutionError.notDefined 1 1)), 0, false⟩ : Chan)) =
          none ∧
        (Except.ok 5 : Except ResolutionError Erased) ≠
          Except.error (ResolutionError.notDefined 8 6))) :=
  ⟨rfl, rfl, by decide,
    wait_always_skips_not_defined
      ⟨Inner.ready (Except.error (ResolutionError.notDefined 1 1)), 0, false⟩
      [⟨Inner.ready (Except.ok 5), 1, false⟩] [⟨Inner.ready (Except.ok 5), 1, false⟩]
      (Except.ok 5) 4 1 1 8 6 rfl rfl (by decide)⟩

/-- C7: slot lookup/creation preserves one-slot-per-key: a shared-lock hit
is used directly; otherwise the key is re-checked under the exclusive lock
(`hgrow` says the registry only grew between the two lock acquisitions) and
a fresh slot is inserted only if the key is still absent. The registry stays
duplicate-free, the key ends bound to exactly the slot the closure ran on,
an existing binding is never replaced (the registry is either untouched or
extended by the fresh key), a repeated lookup returns the same slot, and the
watch-returning variant subscribes to that same slot. -/
theorem state_map_double_checked (m1 m2 mr : KMap) (next nr k sid : Nat)
    (hgrow : ∀ a b, lookupSlot m1 a = some b → lookupSlot m2 a = some b)
    (hnodup : (m2.map Prod.fst).Nodup)
    (hres : withStateByTypeId m1 m2 next k = (mr, nr, sid)) :
    (mr.map Prod.fst).Nodup ∧
    lookupSlot mr k = some sid ∧
    (mr = m2 ∧ nr = next ∧ lookupSlot m2 k = some sid ∨
      lookupSlot m2 k = none ∧ mr = (k, next) :: m2 ∧ sid = next ∧ nr = next + 1) ∧
    withStateByTypeId mr mr nr k = (mr, nr, sid) ∧
    withStateAndWatchByTypeId m1 m2 next k = (mr, nr, sid, sid) := by
  unfold withStateByTypeId at hres
  cases h1 : lookupSlot m1 k with
  | some s₀ =>
    rw [h1] at hres
    simp only [Prod.mk.injEq] at hres
    obtain ⟨hm, hn, hs⟩ := hres
    subst hm; subst hn; subst hs
    have h2 : lookupSlot m2 k = some s₀ := hgrow k s₀ h1
    refine ⟨hnodup, h2, Or.inl ⟨rfl, rfl, h2⟩, ?_, ?_⟩
    · unfold withStateByTypeId
      rw [h2]
    · unfold withStateAndWatchByTypeId
      rw [h1]
  | none =>
    rw [h1] at hres
    cases h2 : lookupSlot m2 k with
    | some s₀ =>
      rw [h2] at hres
      simp only [Prod.mk.injEq] at hres
      obtain ⟨hm, hn, hs⟩ := hres
      subst hm; subst hn; subst hs
      refine ⟨hnodup, h2, Or.inl ⟨rfl, rfl, rfl⟩, ?_, ?_⟩
      · unfold withStateByTypeId
        rw [h2]
      · unfold withStateAndWatchByTypeId
        rw [h1, h2]
    | none =>
      rw [h2] at hres
      simp only [Prod.mk.injEq] at hres
      obtain ⟨hm, hn, hs⟩ := hres
      subst hm; subst hn; subst hs
      have hk : lookupSlot ((k, next) :: m2) k = some next := by
        rw [lookupSlot_cons]
        simp
      refine ⟨?_, hk, Or.inr ⟨rfl, rfl, rfl, rfl⟩, ?_, ?_⟩
      · simp only [List.map_cons, List.nodup_cons]
        exact ⟨lookupSlot_none_not_mem m2 k h2, hnodup⟩
      · unfold withStateByTypeId
        rw [hk]
      · unfold withStateAndWatchByTypeId
        rw [h1, h2]

theorem state_map_double_checked_witness :
    (([(5, 9)] : KMap).map Prod.fst).Nodup ∧
    withStateByTypeId [] [(5, 9)] 10 3 = ([(3, 10), (5, 9)], 11, 10) ∧
    ((([(3, 10), (5, 9)] : KMap).map Prod.fst).Nodup ∧
      lookupSlot [(3, 10), (5, 9)] 3 = some 10 ∧
      (([(3, 10), (5, 9)] : KMap) = [(5, 9)] ∧ 11 = 10 ∧
          lookupSlot [(5, 9)] 3 = some 10 ∨
        lookupSlot [(5, 9)] 3 = none ∧
          ([(3, 10), (5, 9)] : KMap) = (3, 10) :: [(5, 9)] ∧ 10 = 10 ∧ 11 = 10 + 1) ∧
      withStateByTypeId [(3, 10), (5, 9)] [(3, 10), (5, 9)] 11 3 =
        ([(3, 10), (5, 9)], 11, 10) ∧
      withStateAndWatchByTypeId [] [(5, 9)] 10 3 = ([(3, 10), (5, 9)], 11, 10, 10)) :=
  ⟨by decide, by decide,
    state_map_double_checked [] [(5, 9)] [(3, 10), (5, 9)] 10 11 3 10
      (by intro a b hb; simp [lookupSlot] at hb) (by decide) (by decide)⟩

/-! ### Race helpers for the composite `changed()` -/

theorem advance_map (fs : List (Nat → Option (Except ε Unit))) (j : Nat) :
    (fs.map fun f => (⟨f, j⟩ : RaceFut ε)).map (fun m => (⟨m.f, m.polls + 1⟩ : RaceFut ε)) =
      fs.map fun f => ⟨f, j + 1⟩ := by
  rw [List.map_map]
  rfl

theorem racePass_pending (ms : List (RaceFut ε))
    (h : ∀ m ∈ ms, m.f m.polls = none) :
    racePass ms = (none, ms.map fun m => ⟨m.f, m.polls + 1⟩) := by
  induction ms with
  | nil => rfl
  | cons m rest ih =>
    have hm : m.f m.polls = none := h m (List.mem_cons_self _ _)
    have ihr := ih fun x hx => h x (List.mem_cons_of_mem _ hx)
    simp [racePass, hm, ihr]

theorem racePass_winner (ms₁ ms₂ : List (RaceFut ε)) (m : RaceFut ε)
    (res : Except ε Unit)
    (h₁ : ∀ x ∈ ms₁, x.f x.polls = none)
    (hm : m.f m.polls = some res) :
    (racePass (ms₁ ++ m :: ms₂)).1 = some res := by
  induction ms₁ with
  | nil => simp [racePass, hm]
  | cons x rest ih =>
    have hx : x.f x.polls = none := h₁ x (List.mem_cons_self _ _)
    have ihr := ih fun y hy => h₁ y (List.mem_cons_of_mem _ hy)
    simp [racePass, hx, ihr]

theorem raceRun_quiet (fs : List (Nat → Option (Except ε Unit))) :
    ∀ fuel j, (∀ f ∈ fs, ∀ i, i < j + fuel → f i = none) →
      raceRun fuel (fs.map fun f => ⟨f, j⟩) = none := by
  intro fuel
  induction fuel with
  | zero => intro j _; rfl
  | succ fl ih =>
    intro j h
    have hpass : racePass (fs.map fun f => (⟨f, j⟩ : RaceFut ε)) =
        (none, fs.map fun f => ⟨f, j + 1⟩) := by
      have hp := racePass_pending (fs.map fun f => (⟨f, j⟩ : RaceFut ε)) ?_
      · rw [advance_map] at hp
        exact hp
      · intro m hm
        obtain ⟨f, hf, rfl⟩ := List.mem_map.mp hm
        exact h f hf j (by omega)
    rw [raceRun, hpass]
    exact ih (j + 1) fun f hf i hi => h f hf i (by omega)

theorem raceRun_resolves (fs₁ fs₂ : List (Nat → Option (Except ε Unit)))
    (g : Nat → Option (Except ε Unit)) (res : Except ε Unit) (k : Nat)
    (hquiet : ∀ f ∈ fs₁ ++ g :: fs₂, ∀ i, i < k → f i = none)
    (hfs₁ : ∀ f ∈ fs₁, f k = none)
    (hg : g k = some res) :
    ∀ d j, j + d = k →
      raceRun (d + 1) ((fs₁ ++ g :: fs₂).map fun f => ⟨f, j⟩) = some res := by
  intro d
  induction d with
  | zero =>
    intro j hj
    simp only [Nat.add_zero] at hj
    subst hj
    have hwin : (racePass ((fs₁ ++ g :: fs₂).map fun f => (⟨f, j⟩ : RaceFut ε))).1 =
        some res := by
      rw [List.map_append, List.map_cons]
      refine racePass_winner _ _ _ _ ?_ hg
      intro x hx
      obtain ⟨f, hf, rfl⟩ := List.mem_map.mp hx
      exact hfs₁ f hf
    rcases hpass : racePass ((fs₁ ++ g :: fs₂).map fun f => (⟨f, j⟩ : RaceFut ε))
      with ⟨r, ms₁⟩
    rw [hpass] at hwin
    simp only at hwin
    subst hwin
    rw [raceRun, hpass]
  | succ d ih =>
    intro j hj
    have hpass : racePass ((fs₁ ++ g :: fs₂).map fun f => (⟨f, j⟩ : RaceFut ε)) =
        (none, (fs₁ ++ g :: fs₂).map fun f => ⟨f, j + 1⟩) := by
      have hp := racePass_pending ((fs₁ ++ g :: fs₂).map fun f => (⟨f, j⟩ : RaceFut ε)) ?_
      · rw [advance_map] at hp
        exact hp
      · intro m hm
        obtain ⟨f, hf, rfl⟩ := List.mem_map.mp hm
        exact hquiet f hf j (by omega)
    rw [raceRun, hpass]
    exact ih (j + 1) (by omega)

/-- C3: the composite `changed()` races the members' `changed()` futures:
with every member quiet before poll `k`, the members preceding position `i`
still quiet at `k`, and the member at position `i` ready at `k` with `res`
(the members after it arbitrary — they may be ready at `k` as well), the
race resolves on pass `k` with exactly `res` (success or error), and on no
earlier pass. -/
theorem changed_race (fs₁ fs₂ : List (Nat → Option (Except ResolutionError Unit)))
    (g : Nat → Option (Except ResolutionError Unit))
    (res : Except ResolutionError Unit) (k fuel : Nat)
    (hquiet : ∀ f ∈ fs₁ ++ g :: fs₂, ∀ i, i < k → f i = none)
    (hfs₁ : ∀ f ∈ fs₁, f k = none)
    (hg : g k = some res)
    (hfuel : fuel ≤ k) :
    tupleChanged (k + 1) (fs₁ ++ g :: fs₂) = some res ∧
    tupleChanged fuel (fs₁ ++ g :: fs₂) = none := by
  constructor
  · exact raceRun_resolves fs₁ fs₂ g res k hquiet hfs₁ hg k 0 (by omega)
  · rcases Nat.exists_eq_add_of_le hfuel with ⟨d, hd⟩
    exact raceRun_quiet (fs₁ ++ g :: fs₂) fuel 0
      fun f hf i hi => hquiet f hf i (by omega)

theorem changed_race_witness :
    tupleChanged 2
        ([fun _ => none] ++
          (fun i => if i = 0 then none else some (Except.ok ())) ::
            [fun i => if i = 0 then none else some (Except.error (ResolutionError.mkOther 3))]) =
      some (Except.ok ()) ∧
    tupleChanged 1
        ([fun _ => none] ++
          (fun i => if i = 0 then none else some (Except.ok ())) ::
            [fun i => if i = 0 then none else some (Except.error (ResolutionError.mkOther 3))]) =
      none :=
  changed_race [fun _ => none]
    [fun i => if i = 0 then none else some (Except.error (ResolutionError.mkOther 3))]
    (fun i => if i = 0 then none else some (Except.ok ())) (Except.ok ()) 1 1
    (by
      intro f hf i hi
      have hi0 : i = 0 := by omega
      subst hi0
      simp only [List.cons_append, List.nil_append, List.mem_cons,
        List.not_mem_nil, or_false] at hf
      rcases hf with rfl | rfl | rfl <;> simp)
    (by intro f hf; simp at hf; subst hf; rfl)
    rfl (le_refl 1)

/-- C10: the unit watch is degenerate: `current`, `wait`, `wait_always` and
`wait_ok` yield `Ok(())` immediately (at the very first poll),
`current_optional` and `wait_optional` yield `Ok(Some(()))`, `changed()` is
never ready, and a composite built from only unit members never fires
`changed()` however long it is driven. -/
theorem unit_watch_degenerate (p q fuel : Nat) :
    unitCurrent = .ok () ∧
    unitCurrentOptional = .ok (some ()) ∧
    unitWait p = some (.ok ()) ∧
    unitWaitOptional p = some (.ok (some ())) ∧
    unitWaitAlways p = some (.ok ()) ∧
    unitWaitOk p = some (.ok ()) ∧
    unitChanged p = none ∧
    tupleChanged fuel (List.replicate q unitChanged) = none := by
  refine ⟨rfl, rfl, rfl, rfl, rfl, rfl, rfl, ?_⟩
  exact raceRun_quiet (List.replicate q unitChanged) fuel 0
    fun f hf i _ => by rw [List.eq_of_mem_replicate hf]; rfl

/-! ### Join helpers for the composite `wait` family -/

theorem tryJoinPass_error (ms₁ ms₂ : List (TryMaybeDone ε α)) (m : TryMaybeDone ε α)
    (e : ε)
    (h₁ : ∀ x ∈ ms₁, ∀ e₀, x.poll.1 ≠ some (.error e₀))
    (hm : m.poll.1 = some (.error e)) :
    tryJoinPass (ms₁ ++ m :: ms₂) = .error e := by
  induction ms₁ with
  | nil =>
    rcases hp : m.poll with ⟨r, m₁⟩
    rw [hp] at hm
    simp only at hm
    subst hm
    simp [tryJoinPass, hp]
  | cons x rest ih =>
    have hx := h₁ x (List.mem_cons_self _ _)
    have ihr := ih fun y hy => h₁ y (List.mem_cons_of_mem _ hy)
    rcases hp : x.poll with ⟨r, x₁⟩
    cases r with
    | none =>
      rw [List.cons_append]
      simp [tryJoinPass, hp, ihr, Except.map]
    | some v =>
      cases v with
      | error e₀ =>
        have := hx e₀
        rw [hp] at this
        simp at this
      | ok u =>
        cases u
        rw [List.cons_append]
        simp [tryJoinPass, hp, ihr, Except.map]

theorem le_foldr_max (l : List Nat) (a : Nat) (h : a ∈ l) : a ≤ l.foldr max 0 := by
  induction l with
  | nil => cases h
  | cons x rest ih =>
    rcases List.mem_cons.mp h with h | h
    · subst h
      exact le_max_left _ _
    · exact (ih h).trans (le_max_right _ _)

theorem tryJoinPass_stateAfter
    (ts : List ((Nat → Option (Except ε α)) × Nat × α)) (k : Nat)
    (h : ∀ t ∈ ts, (∀ j, j < t.2.1 → t.1 j = none) ∧ t.1 t.2.1 = some (.ok t.2.2)) :
    tryJoinPass (ts.map (stateAfter · k)) =
      .ok (ts.all fun t => decide (t.2.1 < k + 1), ts.map (stateAfter · (k + 1))) := by
  induction ts with
  | nil => rfl
  | cons t rest ih =>
    obtain ⟨hlt, hready⟩ := h t (List.mem_cons_self _ _)
    have ihr := ih fun x hx => h x (List.mem_cons_of_mem _ hx)
    rcases Nat.lt_trichotomy t.2.1 k with hk | hk | hk
    · have hs : stateAfter t k = .done t.2.2 := by simp [stateAfter, hk]
      have hs₁ : stateAfter t (k + 1) = .done t.2.2 := by
        simp [stateAfter]
        omega
      have hd : decide (t.2.1 < k + 1) = true := decide_eq_true (by omega)
      simp [tryJoinPass, hs, hs₁, TryMaybeDone.poll, ihr, Except.map, hd]
    · have hs : stateAfter t k = .future t.1 k := by simp [stateAfter, hk]
      have hs₁ : stateAfter t (k + 1) = .done t.2.2 := by
        simp [stateAfter]
        omega
      have hd : decide (t.2.1 < k + 1) = true := decide_eq_true (by omega)
      subst hk
      simp [tryJoinPass, hs, hs₁, TryMaybeDone.poll, hready, ihr, Except.map, hd]
    · have hs : stateAfter t k = .future t.1 k := by
        simp [stateAfter]
        omega
      have hs₁ : stateAfter t (k + 1) = .future t.1 (k + 1) := by
        simp [stateAfter]
        omega
      have hd : decide (t.2.1 < k + 1) = false := decide_eq_false (by omega)
      have hnone : t.1 k = none := hlt k hk
      simp [tryJoinPass, hs, hs₁, TryMaybeDone.poll, hnone, ihr, Except.map, hd]

theorem takeOutputs_done
    (ts : List ((Nat → Option (Except ε α)) × Nat × α)) (k : Nat)
    (h : ∀ t ∈ ts, t.2.1 < k) :
    takeOutputs (ts.map (stateAfter · k)) = some (ts.map fun t => t.2.2) := by
  induction ts with
  | nil => rfl
  | cons t rest ih =>
    have ht := h t (List.mem_cons_self _ _)
    have ihr := ih fun x hx => h x (List.mem_cons_of_mem _ hx)
    have hs : stateAfter t k = .done t.2.2 := by simp [stateAfter, ht]
    simp [takeOutputs, hs, TryMaybeDone.takeOutput, ihr]

theorem tryJoinRun_stateAfter
    (ts : List ((Nat → Option (Except ε α)) × Nat × α))
    (h : ∀ t ∈ ts, (∀ j, j < t.2.1 → t.1 j = none) ∧ t.1 t.2.1 = some (.ok t.2.2)) :
    ∀ fuel k, (∀ t ∈ ts, t.2.1 ≤ k + fuel) →
      tryJoinRun (fuel + 1) (ts.map (stateAfter · k)) =
        some (.ok (ts.map fun t => t.2.2)) := by
  intro fuel
  induction fuel with
  | zero =>
    intro k hb
    have hall : (ts.all fun t => decide (t.2.1 < k + 1)) = true := by
      rw [List.all_eq_true]
      intro t ht
      exact decide_eq_true (by have := hb t ht; omega)
    have hout := takeOutputs_done ts (k + 1) fun t ht => by have := hb t ht; omega
    rw [tryJoinRun, tryJoinPass_stateAfter ts k h, hall]
    simp [hout]
  | succ fl ih =>
    intro k hb
    rw [tryJoinRun, tryJoinPass_stateAfter ts k h]
    cases hall : (ts.all fun t => decide (t.2.1 < k + 1)) with
    | true =>
      have hout := takeOutputs_done ts (k + 1) fun t ht => by
        have := List.all_eq_true.mp hall t ht
        exact of_decide_eq_true this
      simp [hout]
    | false =>
      exact ih (k + 1) fun t ht => by have := hb t ht; omega

/-- C1: the composite `wait`-family future (`try_join_ty`) is a fail-fast
concurrent join: a pass resolves with the error of the first (lowest
positional index) erroring member, regardless of what the members after it
would do (they are abandoned unpolled), and the whole join resolves with
that error on the very next wake-up; if no member errors, all pending
members are driven forward on every pass, and the join resolves once every
member has completed — within `max ready time + 1` passes, which is only
possible because the members are awaited concurrently — with the tuple of
member results in original positional order. In particular, a two-member
composite whose first member is already resolved with error `e` and whose
second member is forever pending resolves with `Err(e)` on the first poll. -/
theorem tuple_wait_fail_fast_join
    (ms₁ ms₂ : List (TryMaybeDone ε α)) (m : TryMaybeDone ε α) (e : ε) (fuel : Nat)
    (ts : List ((Nat → Option (Except ε α)) × Nat × α))
    (h₁ : ∀ x ∈ ms₁, ∀ e₀, x.poll.1 ≠ some (.error e₀))
    (hm : m.poll.1 = some (.error e))
    (hts : ∀ t ∈ ts, (∀ j, j < t.2.1 → t.1 j = none) ∧ t.1 t.2.1 = some (.ok t.2.2)) :
    tryJoinPass (ms₁ ++ m :: ms₂) = .error e ∧
    tryJoinRun (fuel + 1) (ms₁ ++ m :: ms₂) = some (.error e) ∧
    tupleWait ((ts.map fun t => t.2.1).foldr max 0 + 1) (ts.map fun t => t.1) =
      some (.ok (ts.map fun t => t.2.2)) ∧
    tupleWait 1
        [fun _ => some (.error e), (fun _ => none : Nat → Option (Except ε α))] =
      some (.error e) := by
  have hpass := tryJoinPass_error ms₁ ms₂ m e h₁ hm
  refine ⟨hpass, ?_, ?_, rfl⟩
  · rw [tryJoinRun, hpass]
  · have hmap : (ts.map fun t => t.1).map (fun f => TryMaybeDone.future f 0) =
        ts.map (stateAfter · 0) := by
      rw [List.map_map]
      apply List.map_congr_left
      intro t _
      simp [stateAfter, Function.comp]
    rw [tupleWait, hmap]
    exact tryJoinRun_stateAfter ts hts ((ts.map fun t => t.2.1).foldr max 0) 0
      fun t ht => by
        have := le_foldr_max (ts.map fun t => t.2.1) t.2.1
          (List.mem_map.mpr ⟨t, ht, rfl⟩)
        omega

theorem tuple_wait_fail_fast_join_witness :
    tryJoinPass
        ([TryMaybeDone.future (fun _ => none) 0] ++
          TryMaybeDone.future (fun _ => some (.error (ResolutionError.mkOther 0))) 0 ::
            [TryMaybeDone.future (fun _ => (none : Option (Except ResolutionError Erased))) 0]) =
      .error (ResolutionError.mkOther 0) ∧
    tryJoinRun (0 + 1)
        ([TryMaybeDone.future (fun _ => none) 0] ++
          TryMaybeDone.future (fun _ => some (.error (ResolutionError.mkOther 0))) 0 ::
            [TryMaybeDone.future (fun _ => (none : Option (Except ResolutionError Erased))) 0]) =
      some (.error (ResolutionError.mkOther 0)) ∧
    tupleWait
        (([((fun _ => some (.ok 3) : Nat → Option (Except ResolutionError Erased)), 0, 3),
            (fun j => if j < 2 then none else some (.ok 5), 2, 5)].map
              fun t => t.2.1).foldr max 0 + 1)
        ([((fun _ => some (.ok 3) : Nat → Option (Except ResolutionError Erased)), 0, 3),
            (fun j => if j < 2 then none else some (.ok 5), 2, 5)].map fun t => t.1) =
      some (.ok
        ([((fun _ => some (.ok 3) : Nat → Option (Except ResolutionError Erased)), 0, 3),
            (fun j => if j < 2 then none else some (.ok 5), 2, 5)].map fun t => t.2.2)) ∧
    tupleWait 1
        [fun _ => some (.error (ResolutionError.mkOther 0)),
          fun _ => (none : Option (Except ResolutionError Erased))] =
      some (.error (ResolutionError.mkOther 0)) :=
  tuple_wait_fail_fast_join
    [TryMaybeDone.future (fun _ => none) 0]
    [TryMaybeDone.future (fun _ => (none : Option (Except ResolutionError Erased))) 0]
    (TryMaybeDone.future (fun _ => some (.error (ResolutionError.mkOther 0))) 0)
    (ResolutionError.mkOther 0) 0
    [((fun _ => some (.ok 3) : Nat → Option (Except ResolutionError Erased)), 0, 3),
      (fun j => if j < 2 then none else some (.ok 5), 2, 5)]
    (by
      intro x hx e₀
      simp only [List.mem_cons, List.not_mem_nil, or_false] at hx
      subst hx
      simp [TryMaybeDone.poll])
    rfl
    (by
      intro t ht
      simp only [List.mem_cons, List.not_mem_nil, or_false] at ht
      rcases ht with rfl | rfl
      · exact ⟨fun j hj => absurd hj (Nat.not_lt_zero j), rfl⟩
      · refine ⟨fun j hj => ?_, rfl⟩
        simp [hj])

end Dime
